import Mathlib

/-!
Verification development for the ingestion-and-retrieval pipeline of a RAG
chatbot repository.  The Python source is shallowly embedded:

  * backend/chatbot/utils/text_processor.py  (TextProcessor.chunk_text,
    TextProcessor._split_large_chunk, TextProcessor.clean_text)
  * backend/nodejs/services/vector_store_service.py  (VectorStoreService)
  * backend/services/embedding_service.py  (EmbeddingService)
  * backend/services/chat_service.py  (ChatService.get_context_aware_response)
  * backend/python/ingest.py  (process_document, chunk_document)

Python strings are modelled as Lean String (a list of characters); Python
len(...) is String.length.  The str.split() / str.strip() / re.split /
re.sub operations used by the source are modelled character by character
below, restricted to ASCII whitespace.  All definitions are structurally
recursive so that concrete runs reduce inside the kernel.
-/

/-- Python ASCII whitespace: the characters matched by the regex class
\s and by str.split() / str.strip() (restricted to ASCII). -/
def pythonIsSpace (c : Char) : Bool :=
  c == ' ' || c == '\t' || c == '\n' || c == '\r' || c == '\x0b' || c == '\x0c'

/-- Worker for Python str.split(): walks the character list keeping the
current (reversed) word in the accumulator, emitting a word at every
whitespace run and discarding empty pieces, exactly as str.split() with
no argument does. -/
def wordAux : List Char → List Char → List (List Char)
  | [], cur => if cur = [] then [] else [cur.reverse]
  | c :: cs, cur =>
    if pythonIsSpace c then
      if cur = [] then wordAux cs [] else cur.reverse :: wordAux cs []
    else
      wordAux cs (c :: cur)

/-- Python str.split() on a character list. -/
def splitWordsL (l : List Char) : List (List Char) := wordAux l []

/-- Python str.split() (whitespace split, empty pieces dropped). -/
def pySplit (s : String) : List String := (splitWordsL s.data).map String.mk

/-- Python str.strip(): remove leading and trailing whitespace. -/
def pyStripL (l : List Char) : List Char :=
  ((l.dropWhile pythonIsSpace).reverse.dropWhile pythonIsSpace).reverse

/-- Python str.strip() on String. -/
def pyStrip (s : String) : String := String.mk (pyStripL s.data)

/-- Python ' '.join on character lists. -/
def joinSpaceL : List (List Char) → List Char
  | [] => []
  | [w] => w
  | w :: ws => w ++ ' ' :: joinSpaceL ws

/-- Python ' '.join(list_of_strings). -/
def joinSpaceS (ws : List String) : String :=
  String.mk (joinSpaceL (ws.map String.data))

/-- Sentence-ending punctuation of the regex (?<=[.!?])\s+ used by
TextProcessor.chunk_text (text_processor.py line 15). -/
def isPunct (c : Char) : Bool := c == '.' || c == '!' || c == '?'

/-- Head-is-whitespace test (the lookahead needed to decide whether the
regex (?<=[.!?])\s+ matches right after the current character). -/
def headIsSpace : List Char → Bool
  | [] => false
  | d :: _ => pythonIsSpace d

/-- Worker for re.split(r'(?<=[.!?])\s+', text): cur is the reversed
current sentence; when the skipping flag is set we are inside the
whitespace run that the regex consumes after a sentence boundary. -/
def sentAux : List Char → List Char → Bool → List (List Char)
  | [], cur, _ => [cur.reverse]
  | c :: cs, cur, skipping =>
    if skipping ∧ pythonIsSpace c then
      sentAux cs cur skipping
    else if isPunct c ∧ headIsSpace cs then
      (c :: cur).reverse :: sentAux cs [] true
    else
      sentAux cs (c :: cur) false

/-- Model of re.split(r'(?<=[.!?])\s+', text) on a character list; like
re.split it yields [[]] on empty input and keeps a trailing empty piece. -/
def sentSplitL (l : List Char) : List (List Char) := sentAux l [] false

/-- Model of re.split(r'(?<=[.!?])\s+', text) on String. -/
def sentSplitS (s : String) : List String := (sentSplitL s.data).map String.mk

/-- Python words[-min(len(words), overlap):] from text_processor.py line 30:
the last min(len(words), overlap) words of the just-closed chunk. -/
def overlapSeedWords (ov : Nat) (cur : String) : List String :=
  let ws := pySplit cur
  ws.drop (ws.length - min ws.length ov)

/-- One iteration of the sentence loop of TextProcessor.chunk_text
(text_processor.py lines 20-41).  The accumulator is (chunks, current_chunk).
Python truthiness of current_chunk is the test against the empty string. -/
def chunkStep (cs ov : Nat) (acc : List String × String) (s : String) :
    List String × String :=
  if acc.2.length + s.length > cs then
    if acc.2 ≠ "" then
      (acc.1 ++ [pyStrip acc.2],
       if ov > 0 then joinSpaceS (overlapSeedWords ov acc.2) ++ " " ++ s else s)
    else
      (acc.1 ++ [pyStrip s], "")
  else
    (acc.1, if acc.2 ≠ "" then acc.2 ++ " " ++ s else s)

/-- The sentence-accumulation phase of chunk_text (lines 17-45): fold the
loop body over the sentences and append the final non-empty chunk. -/
def sentencePass (cs ov : Nat) (sentences : List String) : List String :=
  let fin := sentences.foldl (chunkStep cs ov) ([], "")
  fin.1 ++ if fin.2 ≠ "" then [pyStrip fin.2] else []

/-- The current_size recomputation of _split_large_chunk line 77:
sum(len(w) for w in sub) + len(sub) - 1. -/
def wordChunkSize (sub : List String) : Nat :=
  (sub.map String.length).sum + sub.length - 1

/-- One iteration of the word loop of TextProcessor._split_large_chunk
(text_processor.py lines 67-83).  Accumulator: (chunks, current_sub_chunk,
current_size). -/
def wordStep (cs ov : Nat) (acc : List String × List String × Nat)
    (w : String) : List String × List String × Nat :=
  if acc.2.2 + w.length > cs ∧ acc.2.1 ≠ [] then
    if ov > 0 then
      let ow := if acc.2.1.length ≥ ov
                then acc.2.1.drop (acc.2.1.length - ov)
                else acc.2.1
      (acc.1 ++ [joinSpaceS acc.2.1], ow ++ [w], wordChunkSize (ow ++ [w]))
    else
      (acc.1 ++ [joinSpaceS acc.2.1], [w], w.length)
  else
    (acc.1, acc.2.1 ++ [w], acc.2.2 + w.length + 1)

/-- TextProcessor._split_large_chunk (text_processor.py lines 58-89):
re-split an oversized chunk by words, with the same overflow+overlap
policy operating on words. -/
def split_large_chunk (chunk : String) (cs ov : Nat) : List String :=
  let fin := (pySplit chunk).foldl (wordStep cs ov) ([], [], 0)
  fin.1 ++ if fin.2.1 ≠ [] then [joinSpaceS fin.2.1] else []

/-- TextProcessor.chunk_text (text_processor.py lines 9-56): sentence
split, accumulate into chunks, then re-split any chunk still longer than
chunk_size by words. -/
def chunk_text (text : String) (cs ov : Nat) : List String :=
  let chunks := sentencePass cs ov (sentSplitS text)
  (chunks.map (fun c => if c.length > cs then split_large_chunk c cs ov else [c])).flatten

/-- Worker for re.sub(r'\s+', ' ', text): the flag records whether the
previous character was part of a whitespace run already replaced. -/
def collapseAux : List Char → Bool → List Char
  | [], _ => []
  | c :: cs, inRun =>
    if pythonIsSpace c then
      if inRun then collapseAux cs true else ' ' :: collapseAux cs true
    else
      c :: collapseAux cs false

/-- Model of re.sub(r'\s+', ' ', text): every maximal whitespace run
becomes a single space. -/
def collapseWsL (l : List Char) : List Char := collapseAux l false

/-- Suffix of a whitespace run after its last newline (the characters the
greedy \s* of r'\n\s*\n' backtracks over). -/
def afterLastNewline (r : List Char) : List Char :=
  (r.reverse.takeWhile (fun c => !(c == '\n'))).reverse

/-- Output for one parsed segment of re.sub(r'\n\s*\n', '\n\n', ...): a
newline followed by the whitespace run r.  The regex matches exactly when
r holds another newline, and the greedy match ends at the last newline
of the run. -/
def processRun (r : List Char) : List Char :=
  if r.contains '\n' then '\n' :: '\n' :: afterLastNewline r else '\n' :: r

/-- Worker for re.sub(r'\n\s*\n', '\n\n', text): none is normal scanning,
some acc means we saw a newline and acc is the reversed whitespace run
collected after it. -/
def subAux : List Char → Option (List Char) → List Char
  | [], none => []
  | [], some acc => processRun acc.reverse
  | c :: cs, none =>
    if c = '\n' then subAux cs (some []) else c :: subAux cs none
  | c :: cs, some acc =>
    if pythonIsSpace c then subAux cs (some (c :: acc))
    else processRun acc.reverse ++ c :: subAux cs none

/-- Model of re.sub(r'\n\s*\n', '\n\n', text). -/
def subBlankL (l : List Char) : List Char := subAux l none

/-- TextProcessor.clean_text (text_processor.py lines 91-99):
first re.sub(r'\s+', ' ', text), then re.sub(r'\n\s*\n', '\n\n', text),
then str.strip(). -/
def clean_text (s : String) : String :=
  pyStrip (String.mk (subBlankL (collapseWsL s.data)))

/-!
Vector-store and embedding model (vector_store_service.py,
embedding_service.py).  The external providers (OpenAI embeddings, the
Qdrant client) are abstracted into a Provider record: embedFn/score are
arbitrary abstract functions, and each Boolean flag makes the
corresponding client call raise.  Embedding vectors are List Int
(dimension and numeric values are irrelevant to the claims), Qdrant
point uuids are modelled as Nats drawn from a freshness counter. -/

/-- Payload metadata attached to a vector point (ingest.py lines 96-103). -/
structure Meta where
  source_path : String
  document_id : Nat
  chunk_index : Nat
deriving DecidableEq, Repr

/-- Point stored in the vector index: id, vector and payload (the payload
also carries the chunk text, vector_store_service.py line 55). -/
structure Point where
  id : Nat
  vec : List Int
  source_path : String
  document_id : Nat
  chunk_index : Nat
  text : String
deriving DecidableEq, Repr

/-- Abstract behaviour of the external providers.  embedFn is the
embedding model, score the similarity used by the vector store; the
flags make the corresponding underlying client call raise. -/
structure Provider where
  embedFn : String → List Int
  score : List Int → List Int → Int
  embedFails : Bool
  upsertFails : Bool
  searchFails : Bool
  scrollFails : Bool

/-- EmbeddingService.create_embeddings (embedding_service.py lines 11-23):
a provider exception is caught inside and becomes an empty list. -/
def create_embeddings (p : Provider) (texts : List String) : List (List Int) :=
  if p.embedFails then [] else texts.map p.embedFn

/-- EmbeddingService.create_embedding (embedding_service.py lines 25-30):
embeddings[0] if embeddings else []. -/
def create_embedding (p : Provider) (text : String) : List Int :=
  match create_embeddings p [text] with
  | [] => []
  | e :: _ => e

/-- Qdrant upsert semantics: insert or overwrite by id. -/
def upsertPoints (index : List Point) (points : List Point) : List Point :=
  index.filter (fun pt => !((points.map Point.id).contains pt.id)) ++ points

/-- Body of VectorStoreService.store_embeddings (lines 42-69), before the
surrounding try/except: compute embeddings (failure already swallowed one
level down), draw fresh ids, zip texts with embeddings into points (so a
failed embedding call yields zero points but still a full id list), then
upsert; the error case is the client.upsert call raising. -/
def store_embeddings_attempt (p : Provider) (index : List Point)
    (nextVecId : Nat) (texts : List String) (metadata : List Meta) :
    Except Unit (List Nat × List Point) :=
  let embeddings := create_embeddings p texts
  let ids := (List.range texts.length).map (fun i => nextVecId + i)
  let pairs := texts.zip embeddings
  let points := pairs.enum.map (fun ie =>
    let m := metadata.getD ie.1 ⟨"", 0, 0⟩
    Point.mk (nextVecId + ie.1) ie.2.2 m.source_path m.document_id
      m.chunk_index ie.2.1)
  if p.upsertFails then Except.error ()
  else Except.ok (ids, upsertPoints index points)

/-- VectorStoreService.store_embeddings (lines 38-72): the try/except
around the body returns an empty id list and leaves the index unchanged
when the body raises. -/
def store_embeddings (p : Provider) (index : List Point) (nextVecId : Nat)
    (texts : List String) (metadata : List Meta) : List Nat × List Point :=
  match store_embeddings_attempt p index nextVecId texts metadata with
  | Except.ok r => r
  | Except.error _ => ([], index)

/-- Search hit as formatted by search_similar (lines 91-98): id, text,
score and the payload fields other than text. -/
structure SearchResult where
  id : Nat
  text : String
  score : Int
  source_path : String
  document_id : Nat
  chunk_index : Nat
deriving DecidableEq, Repr

/-- Descending-score order on scored points, the order in which the
Qdrant client returns search hits. -/
def scoreDesc (a b : Point × Int) : Prop := b.2 ≤ a.2

instance : DecidableRel scoreDesc :=
  fun a b => inferInstanceAs (Decidable (b.2 ≤ a.2))

instance : IsTotal (Point × Int) scoreDesc :=
  ⟨fun a b => le_total b.2 a.2⟩

instance : IsTrans (Point × Int) scoreDesc :=
  ⟨fun _ _ _ hab hbc => le_trans hbc hab⟩

/-- Body of VectorStoreService.search_similar (lines 78-100): embed the
query (embedding failure already swallowed into an empty vector), then
the client search returns the limit nearest points sorted by descending
score; the error case is the client.search call raising. -/
def search_attempt (p : Provider) (index : List Point) (queryText : String)
    (limit : Nat) : Except Unit (List SearchResult) :=
  let qv := create_embedding p queryText
  if p.searchFails then Except.error ()
  else
    let scored := index.map (fun pt => (pt, p.score qv pt.vec))
    let hits := (List.insertionSort scoreDesc scored).take limit
    Except.ok (hits.map (fun h =>
      SearchResult.mk h.1.id h.1.text h.2 h.1.source_path h.1.document_id
        h.1.chunk_index))

/-- VectorStoreService.search_similar (lines 74-103): the try/except
around the body returns an empty result list when the body raises. -/
def search_similar (p : Provider) (index : List Point) (queryText : String)
    (limit : Nat) : List SearchResult :=
  match search_attempt p index queryText limit with
  | Except.ok r => r
  | Except.error _ => []

/-- Body of VectorStoreService.delete_by_source_path (lines 109-130).
Line 111 binds points to the PAIR (records, next_offset) returned by
client.scroll, and line 125 iterates over that pair (for point, _ in
points), so the list comprehension raises (unpacking a record list /
the offset into two variables) before ids_to_delete is ever built and
before client.delete is ever called.  The body therefore always raises:
first if the scroll call itself fails, otherwise at the unpacking. -/
def delete_by_source_path_attempt (p : Provider) (index : List Point)
    (path : String) : Except Unit (List Point) :=
  if p.scrollFails then Except.error ()
  else Except.error ()

/-- VectorStoreService.delete_by_source_path (lines 105-132): the
try/except around the (always-raising) body leaves the index unchanged,
so the method is a silent no-op on every input. -/
def delete_by_source_path (p : Provider) (index : List Point)
    (path : String) : List Point :=
  match delete_by_source_path_attempt p index path with
  | Except.ok newIndex => newIndex
  | Except.error _ => index

/-!
ChatService.get_context_aware_response (chat_service.py lines 17-72),
modelled up to and including context assembly; the downstream OpenAI chat
completion consumes the assembled context and is out of scope.  The
searchCalls field counts invocations of VectorStoreService.search_similar,
and used models context_texts[:3] from line 35. -/

/-- Observable outcome of context assembly in get_context_aware_response. -/
structure ContextResult where
  contextTexts : List String
  used : List String
  context : String
  searchCalls : Nat
deriving DecidableEq, Repr

/-- ChatService.get_context_aware_response, context-assembly part
(lines 22-35).  Python: if selected_text: - truthy means a non-empty
string, so some "" falls through to the search branch like None.  The
search uses the default limit 5 of search_similar (line 74). -/
def get_context_aware_response (p : Provider) (index : List Point)
    (userMessage : String) (selectedText : Option String) : ContextResult :=
  let ct : List String × Nat :=
    match selectedText with
    | some t =>
      if t ≠ "" then ([t], 0)
      else ((search_similar p index userMessage 5).map SearchResult.text, 1)
    | none => ((search_similar p index userMessage 5).map SearchResult.text, 1)
  ContextResult.mk ct.1 (ct.1.take 3)
    (String.intercalate "\n\n" (ct.1.take 3)) ct.2

/-!
Ingestion model (ingest.py).  The relational store is a list of Document
and DocumentChunk rows; SQLAlchemy ids (uuid4 strings) are modelled as
Nats drawn from a counter, and timestamps are omitted.  SHA-256
(calculate_content_hash, line 33-35) is modelled as an abstract hash
function passed in as a parameter: every claim about it only compares
hashes for equality.  The services of database_service.py
(create_document, get_document_by_source_path, create_document_chunk,
update_document_processed_status) only add rows / update the addressed
row, which is embedded directly below. -/

/-- Document row (models.py lines 57-69, fields used by ingestion). -/
structure Doc where
  id : Nat
  source_path : String
  title : String
  content_hash : String
  is_processed : Bool
deriving DecidableEq, Repr

/-- DocumentChunk row (models.py lines 72-83). -/
structure ChunkRow where
  document_id : Nat
  chunk_index : Nat
  content : String
  token_count : Nat
  vector_id : Option Nat
deriving DecidableEq, Repr

/-- Combined relational + vector-store state threaded through ingestion. -/
structure IngestState where
  docs : List Doc
  chunkRows : List ChunkRow
  index : List Point
  nextDocId : Nat
  nextVecId : Nat
deriving DecidableEq, Repr

/-- Provider calls performed during one document run (for stating that
the unchanged case performs none). -/
inductive ProviderCall
  | scroll
  | embed
  | upsert
deriving DecidableEq, Repr

/-- Chunk record built by chunk_document (ingest.py lines 43-51). -/
structure ChunkData where
  index : Nat
  content : String
  token_count : Nat
deriving DecidableEq, Repr

/-- chunk_document (ingest.py lines 38-51): chunk with the default
chunk_size=1000, overlap=100 and count tokens as len(chunk.split()). -/
def chunk_document (content : String) : List ChunkData :=
  (chunk_text content 1000 100).enum.map
    (fun ic => ChunkData.mk ic.1 ic.2 (pySplit ic.2).length)

/-- Tail of process_document shared by the new and the changed paths
(ingest.py lines 91-121): chunk, embed and upsert in one
store_embeddings call, append one DocumentChunk row per chunk with
vector_id = vector_ids[i] if i < len(vector_ids) else None, finally set
is_processed = True on the document.  Note that no existing DocumentChunk
row is ever deleted: create_document_chunk only inserts. -/
def process_document_tail (p : Provider) (path : String) (docId : Nat)
    (content : String) (st : IngestState) (calls : List ProviderCall) :
    IngestState × List ProviderCall :=
  let chunkData := chunk_document content
  let texts := chunkData.map ChunkData.content
  let metadata := chunkData.map (fun cd => Meta.mk path docId cd.index)
  let res := store_embeddings p st.index st.nextVecId texts metadata
  let newRows := chunkData.map (fun cd =>
    ChunkRow.mk docId cd.index cd.content cd.token_count res.1[cd.index]?)
  let docs2 := st.docs.map (fun d =>
    if d.id = docId then { d with is_processed := true } else d)
  (IngestState.mk docs2 (st.chunkRows ++ newRows) res.2 st.nextDocId
     (st.nextVecId + texts.length),
   calls ++ [ProviderCall.embed, ProviderCall.upsert])

/-- process_document (ingest.py lines 54-121).  hashFn stands for
calculate_content_hash.  Unchanged content (stored hash equals the new
hash) returns before touching anything; changed content first calls
delete_by_source_path and overwrites content_hash on the existing row
(line 81, before any chunking or embedding happens); a new path creates
the Document row.  Returns the new state and the provider calls made. -/
def process_document (hashFn : String → String) (p : Provider)
    (path title content : String) (st : IngestState) :
    IngestState × List ProviderCall :=
  let content_hash := hashFn content
  match st.docs.find? (fun d => d.source_path == path) with
  | some existing =>
    if existing.content_hash = content_hash then (st, [])
    else
      let index1 := delete_by_source_path p st.index path
      let docs1 := st.docs.map (fun d =>
        if d.id = existing.id then { d with content_hash := content_hash } else d)
      process_document_tail p path existing.id content
        (IngestState.mk docs1 st.chunkRows index1 st.nextDocId st.nextVecId)
        [ProviderCall.scroll]
  | none =>
      let doc := Doc.mk st.nextDocId path title content_hash false
      process_document_tail p path doc.id content
        (IngestState.mk (st.docs ++ [doc]) st.chunkRows st.index
          (st.nextDocId + 1) st.nextVecId)
        []

/-!
Instrumented sentence pass for the overlap-seeding analysis.  The chunks
and current_chunk evolve exactly as in chunkStep; in addition each
emitted chunk carries a flag telling whether its accumulator was seeded
(text_processor.py lines 27-31) from the chunk emitted just before it.
Chunks emitted through the oversized-single-sentence branch (lines 34-38)
and accumulations started from an empty current_chunk carry false. -/

/-- State of the instrumented sentence loop: emitted (chunk, seeded-flag)
pairs, the accumulating current_chunk, and whether that accumulator was
seeded from the previously emitted chunk. -/
structure FState where
  chunks : List (String × Bool)
  cur : String
  seeded : Bool
deriving DecidableEq, Repr

/-- One iteration of the sentence loop with seed instrumentation; the
chunk and accumulator transitions mirror chunkStep exactly. -/
def chunkStepPairs (cs ov : Nat) (st : FState) (s : String) : FState :=
  if st.cur.length + s.length > cs then
    if st.cur ≠ "" then
      if ov > 0 then
        FState.mk (st.chunks ++ [(pyStrip st.cur, st.seeded)])
          (joinSpaceS (overlapSeedWords ov st.cur) ++ " " ++ s) true
      else
        FState.mk (st.chunks ++ [(pyStrip st.cur, st.seeded)]) s false
    else
      FState.mk (st.chunks ++ [(pyStrip s, false)]) "" false
  else
    if st.cur ≠ "" then
      FState.mk st.chunks (st.cur ++ " " ++ s) st.seeded
    else
      FState.mk st.chunks s false

/-- The instrumented sentence-accumulation phase: same chunks as
sentencePass (proved below), each paired with its seeded flag. -/
def sentencePassPairs (cs ov : Nat) (sentences : List String) :
    List (String × Bool) :=
  let fin := sentences.foldl (chunkStepPairs cs ov) (FState.mk [] "" false)
  fin.chunks ++ if fin.cur ≠ "" then [(pyStrip fin.cur, fin.seeded)] else []

/-- Overlap-seeding relation between consecutive chunks: whenever chunk b
was seeded from chunk a, the first min(words a, overlap) words of b are
exactly the last min(words a, overlap) words of a. -/
def seedRel (ov : Nat) (a b : String × Bool) : Prop :=
  b.2 = true →
    (pySplit b.1).take (min (pySplit a.1).length ov) =
      (pySplit a.1).drop ((pySplit a.1).length - min (pySplit a.1).length ov)

/-- A word as produced by str.split(): non-empty and whitespace-free. -/
def StrClean (w : String) : Prop :=
  w ≠ "" ∧ ∀ c ∈ w.data, pythonIsSpace c = false

/-- Bound satisfied by every chunk emitted by chunk_text: at most one
character over the chunk_size budget, or at most overlap + 1 words (an
oversized single word, or an oversized overlap-seed window). -/
def ChunkBound (cs ov : Nat) (c : String) : Prop :=
  c.length ≤ cs + 1 ∨ (pySplit c).length ≤ ov + 1

/-- Invariant of the word-window loop of _split_large_chunk: every
emitted chunk satisfies the bound, the window holds clean words, and
current_size tracks the joined window length to within one. -/
def WInv (cs ov : Nat) (acc : List String × List String × Nat) : Prop :=
  (∀ c ∈ acc.1, ChunkBound cs ov c) ∧
  (∀ w ∈ acc.2.1, StrClean w) ∧
  (acc.2.1 = [] → acc.2.2 = 0) ∧
  (acc.2.1 ≠ [] →
    wordChunkSize acc.2.1 ≤ acc.2.2 ∧ acc.2.2 ≤ wordChunkSize acc.2.1 + 1 ∧
    (acc.2.2 ≤ cs + 1 ∨ acc.2.1.length ≤ ov + 1))

/-- Invariant of the instrumented sentence loop: the emitted chunks are
chained by the seeding relation, and whenever the current accumulator is
flagged as seeded its word list starts with the overlap words of the most
recently emitted chunk. -/
def QInv (cs ov : Nat) (st : FState) : Prop :=
  List.Chain' (seedRel ov) st.chunks ∧
  (st.seeded = true → ∃ last, st.chunks.getLast? = some last ∧
    (pySplit st.cur).take (min (pySplit last.1).length ov) =
      (pySplit last.1).drop
        ((pySplit last.1).length - min (pySplit last.1).length ov))

/-!
Concrete scenario data used by the evaluation theorems and witnesses. -/

/-- Provider on which every call succeeds. -/
def okP : Provider :=
  Provider.mk (fun _ => [1]) (fun _ _ => 0) false false false false

/-- Provider whose embedding call raises (swallowed inside
EmbeddingService.create_embeddings, which then returns an empty list). -/
def embedFailP : Provider :=
  Provider.mk (fun _ => [1]) (fun _ _ => 0) true false false false

/-- Provider whose vector-store client calls (upsert, search, scroll)
all raise. -/
def failP : Provider :=
  Provider.mk (fun _ => [1]) (fun _ _ => 0) false true true true

/-- Vector point left over from the first ingestion of doc.md. -/
def oldPoint : Point := Point.mk 100 [1] "doc.md" 1 0 "old chunk"

/-- DocumentChunk row left over from the first ingestion of doc.md. -/
def oldRow : ChunkRow := ChunkRow.mk 1 0 "old chunk" 2 (some 100)

/-- State after a completed first ingestion of doc.md with hash H1:
one processed Document, one chunk row, one indexed point. -/
def c1State : IngestState :=
  IngestState.mk [Doc.mk 1 "doc.md" "doc" "H1" true] [oldRow] [oldPoint] 2 200

/-- State with an existing unprocessed doc.md (hash H1) and an empty
vector index, used for the failing-embedding scenario. -/
def c2State : IngestState :=
  IngestState.mk [Doc.mk 1 "doc.md" "doc" "H1" false] [] [] 2 200

/-- Document row whose stored hash matches the re-ingested content. -/
def c5Doc : Doc := Doc.mk 1 "a.md" "a" "HX" true

/-- State holding only c5Doc, used for the unchanged-content scenario. -/
def c5State : IngestState := IngestState.mk [c5Doc] [] [] 2 0

/-- Provider whose similarity score reads the first vector component,
used to realise the spec example scores 91 > 88 > 80 > 75 > 70. -/
def scoreP : Provider :=
  Provider.mk (fun _ => [1]) (fun _ v => v.headD 0) false false false false

/-- Five indexed points whose scores under scoreP are 80, 91, 70, 88, 75. -/
def c7Index : List Point :=
  [Point.mk 1 [80] "a.md" 1 0 "t80", Point.mk 2 [91] "a.md" 1 1 "t91",
   Point.mk 3 [70] "a.md" 1 2 "t70", Point.mk 4 [88] "a.md" 1 3 "t88",
   Point.mk 5 [75] "a.md" 1 4 "t75"]


/-- C5 (confirmed): re-running ingestion on a document whose stored hash
equals the newly computed hash is a no-op: the state (Document rows,
DocumentChunk rows, vector index) is unchanged and no provider call
(scroll, embed or upsert) is performed. -/
theorem c5_unchanged_noop (hashFn : String → String) (p : Provider)
    (path title content : String) (st : IngestState) (existing : Doc)
    (hfind : st.docs.find? (fun d => d.source_path == path) = some existing)
    (hhash : existing.content_hash = hashFn content) :
    process_document hashFn p path title content st = (st, []) := by
  simp [process_document, hfind, hhash]

/-- Witness for C5 at a concrete state whose stored hash matches. -/
theorem c5_unchanged_noop_witness :
    process_document (fun _ => "HX") okP "a.md" "a" "anything" c5State = (c5State, []) :=
  c5_unchanged_noop (fun _ => "HX") okP "a.md" "a" "anything" c5State c5Doc
    (by decide) (by decide)

/-- C1 (code_bug evaluation): re-ingesting changed content for doc.md with
every provider call succeeding leaves the old vector point (id 100) in the
index - delete_by_source_path is a silent no-op because it iterates over
the (records, next_offset) tuple returned by scroll - and leaves the old
DocumentChunk row in place, producing two rows with chunk_index 0 and a
stale indexed point, contradicting the claimed destroy-and-replace
semantics and the no-orphans invariant. -/
theorem c1_chunk_replacement_code_bug :
    process_document (fun s => s) okP "doc.md" "doc" "new text" c1State =
      (IngestState.mk [Doc.mk 1 "doc.md" "doc" "new text" true]
        [oldRow, ChunkRow.mk 1 0 "new text" 2 (some 200)]
        [oldPoint, Point.mk 200 [1] "doc.md" 1 0 "new text"] 2 201,
       [ProviderCall.scroll, ProviderCall.embed, ProviderCall.upsert]) ∧
    oldPoint ∈ (process_document (fun s => s) okP "doc.md" "doc" "new text" c1State).1.index ∧
    oldRow ∈ (process_document (fun s => s) okP "doc.md" "doc" "new text" c1State).1.chunkRows ∧
    ((process_document (fun s => s) okP "doc.md" "doc" "new text" c1State).1.chunkRows.map
      ChunkRow.chunk_index) = [0, 0] := by
  decide

/-- C2 (code_bug evaluation): re-ingesting changed content while the
embedding provider raises still ends with is_processed = true and the new
content_hash persisted, and the chunk row receives a vector id that was
never stored (the index stays empty): the embedding failure is swallowed
into an empty embedding list, so nothing downstream detects it. -/
theorem c2_processed_flag_code_bug :
    process_document (fun s => s) embedFailP "doc.md" "doc" "new text" c2State =
      (IngestState.mk [Doc.mk 1 "doc.md" "doc" "new text" true]
        [ChunkRow.mk 1 0 "new text" 2 (some 200)] [] 2 201,
       [ProviderCall.scroll, ProviderCall.embed, ProviderCall.upsert]) ∧
    embedFailP.embedFails = true ∧
    (process_document (fun s => s) embedFailP "doc.md" "doc" "new text" c2State).1.index = [] := by
  decide

/-- C9 (code_bug evaluation): clean_text collapses a paragraph break to a
single space - the first substitution removes every newline, so the
blank-line rule is dead code and paragraph structure is not preserved. -/
theorem c9_clean_text_code_bug :
    clean_text "a\n\nb" = "a b" ∧ clean_text "a\n\nb" ≠ "a\n\nb" ∧
    clean_text "para one.\n\npara two." = "para one. para two." := by
  decide

/-- C3 counterexample: chunk_text emits the chunk "b a aa" of length 6 for
chunk_size 5; the input is a single sentence and the chunk has three
words, so it is neither a single oversized sentence nor a single
oversized word, refuting the claimed length bound. -/
theorem c3_chunk_bound_counterexample :
    chunk_text "aaa b a aa" 5 1 = ["aaa b", "b a aa"] ∧
    String.length "b a aa" = 6 ∧ 5 < String.length "b a aa" ∧
    sentSplitS "aaa b a aa" = ["aaa b a aa"] ∧
    (pySplit "b a aa").length = 3 := by
  decide

/-- C4 counterexample: for overlap 1, the consecutive output chunks
"aaaaaa." and "bb." share no words although chunk 0 has at least one
word: an oversized single sentence is emitted without overlap seeding,
refuting the claimed overlap property for all consecutive chunks. -/
theorem c4_overlap_counterexample :
    chunk_text "aaaaaa. bb." 5 1 = ["aaaaaa.", "bb."] ∧
    (pySplit "aaaaaa.").length = 1 ∧
    (pySplit "bb.").take 1 = ["bb."] ∧
    (pySplit "aaaaaa.").drop 0 = ["aaaaaa."] ∧
    (["bb."] : List String) ≠ ["aaaaaa."] := by
  decide

/-- C8 counterexample: a whitespace-only input produces the one-element
chunk list [""], not the claimed empty sequence. -/
theorem c8_empty_input_counterexample :
    chunk_text " " 1000 100 = [""] ∧ chunk_text " " 1000 100 ≠ [] := by
  decide

/-- C10 counterexample: with the embedding provider raising (failure
swallowed into an empty embedding list), store_embeddings returns a
full-length fresh id list, not the claimed empty list, while storing
nothing. -/
theorem c10_store_ids_counterexample :
    store_embeddings embedFailP [] 7 ["a", "b"] [Meta.mk "p" 1 0, Meta.mk "p" 1 1] =
      ([7, 8], []) ∧
    embedFailP.embedFails = true ∧ ([7, 8] : List Nat) ≠ [] := by
  decide

/-- C6 (confirmed): a raise of the underlying vector-store client call is
caught at the VectorIndex boundary and never propagates: search returns
the empty result list, upsert returns the empty id list leaving the index
unchanged, and delete-by-source-path leaves the index unchanged. -/
theorem c6_provider_errors_contained (p : Provider) (index : List Point)
    (q path : String) (limit nextVec : Nat) (texts : List String)
    (md : List Meta) :
    (p.searchFails = true → search_similar p index q limit = []) ∧
    (p.upsertFails = true → store_embeddings p index nextVec texts md = ([], index)) ∧
    (p.scrollFails = true → delete_by_source_path p index path = index) := by
  refine ⟨fun h => ?_, fun h => ?_, fun h => ?_⟩ <;>
    simp [search_similar, search_attempt, store_embeddings,
      store_embeddings_attempt, delete_by_source_path,
      delete_by_source_path_attempt, h]

/-- Witness for C6 with a provider whose client calls all raise. -/
theorem c6_provider_errors_contained_witness :
    search_similar failP [oldPoint] "q" 5 = [] ∧
    store_embeddings failP [oldPoint] 0 ["t"] [] = ([], [oldPoint]) ∧
    delete_by_source_path failP [oldPoint] "doc.md" = [oldPoint] := by
  obtain ⟨h1, h2, h3⟩ :=
    c6_provider_errors_contained failP [oldPoint] "q" "doc.md" 5 0 ["t"] []
  exact ⟨h1 rfl, h2 rfl, h3 rfl⟩

theorem search_similar_pairwise (p : Provider) (index : List Point)
    (q : String) (k : Nat) :
    List.Pairwise (fun a b => b.score ≤ a.score) (search_similar p index q k) := by
  unfold search_similar search_attempt
  cases hf : p.searchFails
  · simp only [hf, Bool.false_eq_true, if_false]
    have hs : List.Sorted scoreDesc
        (List.insertionSort scoreDesc (index.map (fun pt => (pt, p.score (create_embedding p q) pt.vec)))) :=
      List.sorted_insertionSort scoreDesc _
    have ht : List.Pairwise scoreDesc
        ((List.insertionSort scoreDesc (index.map (fun pt => (pt, p.score (create_embedding p q) pt.vec)))).take k) :=
      hs.sublist (List.take_sublist _ _)
    simp only [List.pairwise_map]
    exact ht.imp (fun h => h)
  · simp [hf]

/-- C7 (confirmed): with a non-empty explicit text X the assembler returns
exactly [X] and performs no vector search, for every index; without
explicit text it performs one search with k = 5, the results are sorted
by descending score, only the top 3 are used (every used result scores at
least as high as every unused one), and a search returning zero results
yields the empty context. -/
theorem c7_context_assembly :
    (∀ (p : Provider) (index : List Point) (msg t : String), t ≠ "" →
      (get_context_aware_response p index msg (some t)).contextTexts = [t] ∧
      (get_context_aware_response p index msg (some t)).used = [t] ∧
      (get_context_aware_response p index msg (some t)).searchCalls = 0) ∧
    (∀ (p : Provider) (index : List Point) (msg : String),
      (get_context_aware_response p index msg none).searchCalls = 1 ∧
      (get_context_aware_response p index msg none).contextTexts =
        (search_similar p index msg 5).map SearchResult.text ∧
      (get_context_aware_response p index msg none).used =
        ((search_similar p index msg 5).map SearchResult.text).take 3 ∧
      List.Chain' (fun a b => b.score ≤ a.score) (search_similar p index msg 5) ∧
      (∀ a ∈ (search_similar p index msg 5).take 3,
       ∀ b ∈ (search_similar p index msg 5).drop 3, b.score ≤ a.score) ∧
      (search_similar p index msg 5 = [] →
        (get_context_aware_response p index msg none).used = [])) := by
  constructor
  · intro p index msg t ht
    simp [get_context_aware_response, ht]
  · intro p index msg
    have hpw := search_similar_pairwise p index msg 5
    refine ⟨rfl, rfl, rfl, hpw.chain', ?_, ?_⟩
    · intro a ha b hb
      have hsplit := List.take_append_drop 3 (search_similar p index msg 5)
      rw [← hsplit] at hpw
      exact ((List.pairwise_append.mp hpw).2.2) a ha b hb
    · intro hemp
      simp [get_context_aware_response, hemp]

/-- Witness for C7: explicit context wins on a populated index, and with
scores 91, 88, 80, 75, 70 the context is the top three texts. -/
theorem c7_context_assembly_witness :
    (get_context_aware_response scoreP c7Index "What is embodiment?"
      (some "Robots are embodied agents.")).contextTexts =
        ["Robots are embodied agents."] ∧
    (get_context_aware_response scoreP c7Index "What is embodiment?"
      (some "Robots are embodied agents.")).searchCalls = 0 ∧
    (get_context_aware_response scoreP c7Index "What is embodiment?" none).used =
      ["t91", "t88", "t80"] := by
  obtain ⟨h1, h2⟩ := c7_context_assembly
  obtain ⟨ha, _, hc⟩ :=
    h1 scoreP c7Index "What is embodiment?" "Robots are embodied agents." (by decide)
  obtain ⟨_, _, hu, _, _, _⟩ := h2 scoreP c7Index "What is embodiment?"
  refine ⟨ha, hc, ?_⟩
  rw [hu]
  decide

theorem chunkData_index_lt (content : String) :
    ∀ cd ∈ chunk_document content, cd.index < (chunk_document content).length := by
  intro cd hcd
  unfold chunk_document at hcd ⊢
  rw [List.length_map, List.enum_length]
  obtain ⟨ic, hic, rfl⟩ := List.mem_map.mp hcd
  have := List.mem_enum_iff_getElem?.mp hic
  simp only []
  have hlt : ic.1 < (chunk_text content 1000 100).length := by
    rcases List.getElem?_eq_some.mp this with ⟨h, _⟩
    exact h
  exact hlt

theorem store_embeddings_ids_ok (p : Provider) (index : List Point) (nv : Nat)
    (texts : List String) (md : List Meta) (h : p.upsertFails = false) :
    (store_embeddings p index nv texts md).1 =
      (List.range texts.length).map (fun i => nv + i) := by
  simp [store_embeddings, store_embeddings_attempt, h]

theorem store_embeddings_ids_getElem (p : Provider) (index : List Point)
    (nv : Nat) (texts : List String) (md : List Meta) (i : Nat)
    (hi : i < texts.length) (h : p.upsertFails = false) :
    ((store_embeddings p index nv texts md).1)[i]? = some (nv + i) := by
  rw [store_embeddings_ids_ok p index nv texts md h]
  simp [List.getElem?_map, List.getElem?_range, hi]

theorem process_document_tail_chunkRows (p : Provider) (path : String)
    (docId : Nat) (content : String) (st : IngestState)
    (calls : List ProviderCall) :
    (process_document_tail p path docId content st calls).1.chunkRows =
      st.chunkRows ++ (chunk_document content).map (fun cd =>
        ChunkRow.mk docId cd.index cd.content cd.token_count
          ((store_embeddings p st.index st.nextVecId
              ((chunk_document content).map ChunkData.content)
              ((chunk_document content).map (fun cd2 => Meta.mk path docId cd2.index))).1)[cd.index]?) :=
  rfl

theorem process_document_new_rows (hashFn : String → String) (p : Provider)
    (path title content : String) (st : IngestState) :
    ∀ r ∈ (process_document hashFn p path title content st).1.chunkRows.drop
        st.chunkRows.length,
      (p.upsertFails = false → r.vector_id = some (st.nextVecId + r.chunk_index)) ∧
      (p.upsertFails = true → r.vector_id = none) := by
  intro r hr
  have main : ∀ (docId : Nat) (st1 : IngestState) (calls : List ProviderCall),
      st1.chunkRows = st.chunkRows → st1.nextVecId = st.nextVecId →
      r ∈ (process_document_tail p path docId content st1 calls).1.chunkRows.drop
        st.chunkRows.length →
      (p.upsertFails = false → r.vector_id = some (st.nextVecId + r.chunk_index)) ∧
      (p.upsertFails = true → r.vector_id = none) := by
    intro docId st1 calls hrows hnv hmem
    rw [process_document_tail_chunkRows, hrows, hnv, List.drop_left] at hmem
    obtain ⟨cd, hcd, rfl⟩ := List.mem_map.mp hmem
    constructor
    · intro hok
      have hlt : cd.index < ((chunk_document content).map ChunkData.content).length := by
        rw [List.length_map]; exact chunkData_index_lt content cd hcd
      exact store_embeddings_ids_getElem p st1.index st.nextVecId _ _ cd.index hlt hok
    · intro hfail
      have : (store_embeddings p st1.index st.nextVecId
          ((chunk_document content).map ChunkData.content)
          ((chunk_document content).map (fun cd2 => Meta.mk path docId cd2.index))).1 = [] := by
        simp [store_embeddings, store_embeddings_attempt, hfail]
      simp [this]
  cases hfind : st.docs.find? (fun d => d.source_path == path) with
  | none =>
    simp only [process_document, hfind] at hr
    refine main _ _ _ ?_ ?_ hr <;> rfl
  | some existing =>
    by_cases hh : existing.content_hash = hashFn content
    · simp only [process_document, hfind, hh, if_true] at hr
      simp [List.drop_length] at hr
    · simp only [process_document, hfind, hh, if_false] at hr
      refine main _ _ _ ?_ ?_ hr <;> rfl

/-- C10 (amended): store_embeddings returns the fresh id list of length
equal to the number of texts whenever the upsert call does not raise -
also when the embedding call failed, in which case the index is left
unchanged while the full id list is still returned - and returns the
empty list exactly when the upsert raises; every DocumentChunk row
appended by process_document carries vector_id = nextVecId + chunk_index
when the upsert succeeded and None when it raised. -/
theorem c10_store_ids_amended :
    (∀ (p : Provider) (index : List Point) (nv : Nat) (texts : List String)
       (md : List Meta), p.upsertFails = false →
        (store_embeddings p index nv texts md).1 =
          (List.range texts.length).map (fun i => nv + i) ∧
        (store_embeddings p index nv texts md).1.length = texts.length) ∧
    (∀ (p : Provider) (index : List Point) (nv : Nat) (texts : List String)
       (md : List Meta), p.upsertFails = true →
        store_embeddings p index nv texts md = ([], index)) ∧
    (∀ (p : Provider) (index : List Point) (nv : Nat) (texts : List String)
       (md : List Meta), p.embedFails = true → p.upsertFails = false →
        (store_embeddings p index nv texts md).2 = index ∧
        (store_embeddings p index nv texts md).1.length = texts.length) ∧
    (∀ (hashFn : String → String) (p : Provider) (path title content : String)
       (st : IngestState),
      ∀ r ∈ (process_document hashFn p path title content st).1.chunkRows.drop
          st.chunkRows.length,
        (p.upsertFails = false → r.vector_id = some (st.nextVecId + r.chunk_index)) ∧
        (p.upsertFails = true → r.vector_id = none)) := by
  refine ⟨?_, ?_, ?_, process_document_new_rows⟩
  · intro p index nv texts md h
    refine ⟨store_embeddings_ids_ok p index nv texts md h, ?_⟩
    rw [store_embeddings_ids_ok p index nv texts md h]
    simp
  · intro p index nv texts md h
    simp [store_embeddings, store_embeddings_attempt, h]
  · intro p index nv texts md he hu
    constructor
    · simp [store_embeddings, store_embeddings_attempt, create_embeddings, he,
        hu, upsertPoints]
    · rw [store_embeddings_ids_ok p index nv texts md hu]
      simp

/-- Witness for C10 applying each part of the amended theorem at concrete
providers and at the concrete re-ingestion run. -/
theorem c10_store_ids_amended_witness :
    (store_embeddings okP [] 5 ["x", "y"] []).1.length = 2 ∧
    store_embeddings failP [] 5 ["x", "y"] [] = ([], []) ∧
    (store_embeddings embedFailP [oldPoint] 5 ["x", "y"] []).2 = [oldPoint] ∧
    (ChunkRow.mk 1 0 "new text" 2 (some 200)).vector_id = some (200 + 0) := by
  obtain ⟨h1, h2, h3, h4⟩ := c10_store_ids_amended
  refine ⟨(h1 okP [] 5 ["x", "y"] [] rfl).2, h2 failP [] 5 ["x", "y"] [] rfl,
    (h3 embedFailP [oldPoint] 5 ["x", "y"] [] rfl rfl).1, ?_⟩
  have hr := h4 (fun s => s) okP "doc.md" "doc" "new text" c1State
    (ChunkRow.mk 1 0 "new text" 2 (some 200)) (by decide)
  exact hr.1 rfl

theorem space_not_punct (c : Char) (h : pythonIsSpace c = true) :
    isPunct c = false := by
  simp only [pythonIsSpace, Bool.or_eq_true, beq_iff_eq] at h
  rcases h with ((((h | h) | h) | h) | h) | h <;> subst h <;> decide

theorem sentAux_no_punct (l : List Char) :
    ∀ cur, (∀ c ∈ l, isPunct c = false) → sentAux l cur false = [cur.reverse ++ l] := by
  induction l with
  | nil => intro cur _; simp [sentAux]
  | cons c cs ih =>
    intro cur hnp
    have hc : isPunct c = false := hnp c (List.mem_cons_self c cs)
    have hrest : ∀ d ∈ cs, isPunct d = false := fun d hd => hnp d (List.mem_cons_of_mem c hd)
    simp only [sentAux, false_and, if_false, hc, Bool.false_eq_true, if_neg]
    rw [ih (c :: cur) hrest]
    simp

theorem sentSplit_no_punct (l : List Char) (h : ∀ c ∈ l, isPunct c = false) :
    sentSplitL l = [l] := by
  unfold sentSplitL
  rw [sentAux_no_punct l [] h]
  simp

theorem pyStrip_all_space (s : String) (h : ∀ c ∈ s.data, pythonIsSpace c = true) :
    pyStrip s = "" := by
  unfold pyStrip pyStripL
  have h1 : s.data.dropWhile pythonIsSpace = [] := List.dropWhile_eq_nil_iff.mpr h
  rw [h1]
  rfl

theorem stringMk_data (s : String) : String.mk s.data = s := by
  cases s; rfl

/-- C8 (amended): empty input chunks to the empty sequence, and
whitespace-only non-empty input chunks to the one-element sequence
containing the empty string. -/
theorem c8_empty_input_amended :
    (∀ cs ov : Nat, chunk_text "" cs ov = []) ∧
    (∀ (t : String) (cs ov : Nat), t ≠ "" →
      (∀ c ∈ t.data, pythonIsSpace c = true) → chunk_text t cs ov = [""]) := by
  constructor
  · intro cs ov
    simp [chunk_text, sentencePass, sentSplitS, sentSplitL, sentAux, chunkStep]
  · intro t cs ov hne hsp
    have hpunct : ∀ c ∈ t.data, isPunct c = false :=
      fun c hc => space_not_punct c (hsp c hc)
    have hsent : sentSplitS t = [t] := by
      unfold sentSplitS
      rw [sentSplit_no_punct t.data hpunct]
      simp [stringMk_data]
    have hstrip : pyStrip t = "" := pyStrip_all_space t hsp
    unfold chunk_text
    rw [hsent]
    simp only [sentencePass, List.foldl_cons, List.foldl_nil, chunkStep]
    by_cases hgt : String.length "" + String.length t > cs
    · rw [if_pos hgt]
      simp [hstrip, Nat.not_lt_zero]
    · rw [if_neg hgt]
      simp [hne, hstrip, Nat.not_lt_zero]

/-- Witness for C8 at the empty string and a one-space string. -/
theorem c8_empty_input_amended_witness :
    (" " : String) ≠ "" ∧ chunk_text "" 7 2 = [] ∧ chunk_text " " 7 2 = [""] :=
  ⟨by decide, c8_empty_input_amended.1 7 2,
   c8_empty_input_amended.2 " " 7 2 (by decide) (by decide)⟩

theorem data_append (a b : String) : (a ++ b).data = a.data ++ b.data := rfl

theorem wordAux_append_space (ys : List Char) :
    ∀ (xs cur : List Char),
      wordAux (xs ++ ' ' :: ys) cur = wordAux xs cur ++ wordAux ys [] := by
  intro xs
  induction xs with
  | nil =>
    intro cur
    have hsp : pythonIsSpace ' ' = true := rfl
    by_cases hc : cur = []
    · subst hc; simp [wordAux, hsp]
    · simp [wordAux, hsp, hc]
  | cons c xs ih =>
    intro cur
    by_cases hs : pythonIsSpace c
    · by_cases hc : cur = []
      · subst hc; simp [wordAux, hs, ih]
      · simp [wordAux, hs, hc, ih]
    · simp [wordAux, hs, ih]

theorem wordAux_pure (w : List Char) (hw : ∀ c ∈ w, pythonIsSpace c = false) :
    ∀ cur, wordAux w cur =
      if cur.reverse ++ w = [] then [] else [cur.reverse ++ w] := by
  induction w with
  | nil => intro cur; by_cases hc : cur = [] <;> simp [wordAux, hc]
  | cons c w ih =>
    intro cur
    have hc : pythonIsSpace c = false := hw c (List.mem_cons_self c w)
    have hrest : ∀ d ∈ w, pythonIsSpace d = false :=
      fun d hd => hw d (List.mem_cons_of_mem c hd)
    simp only [wordAux, hc, Bool.false_eq_true, if_false, ih hrest]
    simp

theorem wordAux_clean (l : List Char) :
    ∀ cur, (∀ c ∈ cur, pythonIsSpace c = false) →
      ∀ w ∈ wordAux l cur, w ≠ [] ∧ ∀ c ∈ w, pythonIsSpace c = false := by
  induction l with
  | nil =>
    intro cur hcur w hw
    by_cases hc : cur = []
    · subst hc; simp [wordAux] at hw
    · simp [wordAux, hc] at hw
      subst hw
      refine ⟨by simpa using hc, ?_⟩
      intro c hc2
      exact hcur c (List.mem_reverse.mp hc2)
  | cons c cs ih =>
    intro cur hcur w hw
    by_cases hs : pythonIsSpace c
    · by_cases hc : cur = []
      · subst hc
        simp only [wordAux, hs, if_true, if_pos rfl] at hw
        exact ih [] (by simp) w hw
      · simp only [wordAux, hs, if_true, if_neg hc, List.mem_cons] at hw
        rcases hw with hw | hw
        · subst hw
          refine ⟨by simpa using hc, ?_⟩
          intro d hd
          exact hcur d (List.mem_reverse.mp hd)
        · exact ih [] (by simp) w hw
    · simp only [wordAux, hs, Bool.false_eq_true, if_false] at hw
      refine ih (c :: cur) ?_ w hw
      intro d hd
      rcases List.mem_cons.mp hd with hd | hd
      · subst hd; simpa using hs
      · exact hcur d hd

theorem splitWords_join (ws : List (List Char))
    (h : ∀ w ∈ ws, w ≠ [] ∧ ∀ c ∈ w, pythonIsSpace c = false) :
    splitWordsL (joinSpaceL ws) = ws := by
  induction ws with
  | nil => rfl
  | cons w ws ih =>
    obtain ⟨hne, hcl⟩ := h w (List.mem_cons_self w ws)
    have hrest : ∀ v ∈ ws, v ≠ [] ∧ ∀ c ∈ v, pythonIsSpace c = false :=
      fun v hv => h v (List.mem_cons_of_mem w hv)
    cases ws with
    | nil =>
      show splitWordsL w = [w]
      unfold splitWordsL
      rw [wordAux_pure w hcl []]
      simp [hne]
    | cons v vs =>
      show splitWordsL (w ++ ' ' :: joinSpaceL (v :: vs)) = w :: v :: vs
      unfold splitWordsL
      rw [wordAux_append_space]
      have h1 : wordAux w [] = [w] := by
        rw [wordAux_pure w hcl []]; simp [hne]
      rw [h1]
      have h2 := ih hrest
      unfold splitWordsL at h2
      rw [h2]
      rfl

theorem joinSpaceL_length (ws : List (List Char)) (h : ws ≠ []) :
    (joinSpaceL ws).length = (ws.map List.length).sum + ws.length - 1 := by
  induction ws with
  | nil => exact absurd rfl h
  | cons w ws ih =>
    cases ws with
    | nil => simp [joinSpaceL]
    | cons v vs =>
      show (w ++ ' ' :: joinSpaceL (v :: vs)).length = _
      have hvs : (v :: vs : List (List Char)) ≠ [] := by simp
      have hlen : 0 < (v :: vs : List (List Char)).length := by simp
      rw [List.length_append]
      simp only [List.length_cons, ih hvs, List.map_cons, List.sum_cons]
      have : ((v :: vs).map List.length).sum + (v :: vs).length - 1 + 1 =
          ((v :: vs).map List.length).sum + (v :: vs).length := by
        have : 1 ≤ ((v :: vs).map List.length).sum + (v :: vs).length := by
          simp only [List.length_cons]
          omega
        omega
      simp only [List.map_cons, List.sum_cons, List.length_cons] at this ⊢
      omega

theorem pySplit_clean (s : String) : ∀ w ∈ pySplit s, StrClean w := by
  intro w hw
  unfold pySplit at hw
  obtain ⟨wl, hwl, rfl⟩ := List.mem_map.mp hw
  obtain ⟨hne, hcl⟩ := wordAux_clean s.data [] (by simp) wl hwl
  refine ⟨?_, hcl⟩
  intro hmk
  exact hne (congrArg String.data hmk)

theorem pySplit_join (ws : List String) (h : ∀ w ∈ ws, StrClean w) :
    pySplit (joinSpaceS ws) = ws := by
  unfold pySplit joinSpaceS
  have hcl : ∀ w ∈ ws.map String.data, w ≠ [] ∧ ∀ c ∈ w, pythonIsSpace c = false := by
    intro wl hwl
    obtain ⟨w, hw, rfl⟩ := List.mem_map.mp hwl
    obtain ⟨hne, hc⟩ := h w hw
    refine ⟨?_, hc⟩
    intro hnil
    exact hne (by cases w; simp at hnil; simp [hnil])
  rw [show (String.mk (joinSpaceL (ws.map String.data))).data = joinSpaceL (ws.map String.data) from rfl]
  rw [splitWords_join (ws.map String.data) hcl]
  rw [List.map_map]
  have : (String.mk ∘ String.data) = id := by
    funext s; exact stringMk_data s
  rw [this, List.map_id]

theorem joinSpaceS_length (ws : List String) (h : ws ≠ []) :
    (joinSpaceS ws).length = wordChunkSize ws := by
  unfold joinSpaceS wordChunkSize
  show (joinSpaceL (ws.map String.data)).length = _
  rw [joinSpaceL_length (ws.map String.data) (by simpa using h)]
  rw [List.map_map, List.length_map]
  rfl

theorem foldl_inv {σ α : Type} (P : σ → Prop) (Q : α → Prop)
    (step : σ → α → σ) (hstep : ∀ s a, P s → Q a → P (step s a)) :
    ∀ (l : List α) (s : σ), P s → (∀ a ∈ l, Q a) → P (l.foldl step s) := by
  intro l
  induction l with
  | nil => intro s hs _; exact hs
  | cons a l ih =>
    intro s hs hq
    exact ih (step s a) (hstep s a hs (hq a (List.mem_cons_self a l)))
      (fun b hb => hq b (List.mem_cons_of_mem a hb))

theorem wordChunkSize_append_one (sub : List String) (w : String)
    (h : sub ≠ []) :
    wordChunkSize (sub ++ [w]) = wordChunkSize sub + w.length + 1 := by
  unfold wordChunkSize
  rw [List.map_append, List.sum_append, List.length_append]
  have : 0 < sub.length := List.length_pos.mpr h
  simp only [List.map_cons, List.map_nil, List.sum_cons, List.sum_nil,
    List.length_cons, List.length_nil]
  omega

theorem wordChunkSize_single (w : String) :
    wordChunkSize [w] = w.length := by
  simp [wordChunkSize]

theorem bound_of_clean_words (cs ov : Nat) (sub : List String)
    (hcl : ∀ w ∈ sub, StrClean w) (hne : sub ≠ [])
    (hdisj : wordChunkSize sub ≤ cs + 1 ∨ sub.length ≤ ov + 1) :
    ChunkBound cs ov (joinSpaceS sub) := by
  rcases hdisj with h | h
  · left
    rw [joinSpaceS_length sub hne]
    exact h
  · right
    rw [pySplit_join sub hcl]
    exact h

theorem wordStep_inv (cs ov : Nat) (acc : List String × List String × Nat)
    (w : String) (hacc : WInv cs ov acc) (hw : StrClean w) :
    WInv cs ov (wordStep cs ov acc w) := by
  obtain ⟨hout, hcl, hemp, hfull⟩ := hacc
  unfold wordStep
  by_cases hcond : acc.2.2 + w.length > cs ∧ acc.2.1 ≠ []
  · rw [if_pos hcond]
    obtain ⟨hJ, hsz, hdisj⟩ := hfull hcond.2
    have hboundemit : ChunkBound cs ov (joinSpaceS acc.2.1) := by
      refine bound_of_clean_words cs ov acc.2.1 hcl hcond.2 ?_
      rcases hdisj with h | h
      · exact Or.inl (le_trans hJ h)
      · exact Or.inr h
    have houtnew : ∀ c ∈ acc.1 ++ [joinSpaceS acc.2.1], ChunkBound cs ov c := by
      intro c hc
      rcases List.mem_append.mp hc with hc | hc
      · exact hout c hc
      · rw [List.mem_singleton.mp hc]; exact hboundemit
    by_cases hov : ov > 0
    · rw [if_pos hov]
      refine ⟨houtnew, ?_, ?_, ?_⟩
      · intro v hv
        rcases List.mem_append.mp hv with hv | hv
        · by_cases hlen : acc.2.1.length ≥ ov
          · simp only [if_pos hlen] at hv
            exact hcl v (List.drop_subset _ _ hv)
          · simp only [if_neg hlen] at hv
            exact hcl v hv
        · rw [List.mem_singleton.mp hv]; exact hw
      · intro habs
        exact absurd habs (by simp)
      · intro _
        set ow := if acc.2.1.length ≥ ov then acc.2.1.drop (acc.2.1.length - ov)
          else acc.2.1 with how
        refine ⟨le_refl _, Nat.le_succ _, Or.inr ?_⟩
        rw [List.length_append, List.length_cons, List.length_nil]
        have : ow.length ≤ ov := by
          rw [how]
          by_cases hlen : acc.2.1.length ≥ ov
          · rw [if_pos hlen, List.length_drop]; omega
          · rw [if_neg hlen]; omega
        omega
    · rw [if_neg hov]
      unfold WInv
      dsimp only
      refine ⟨houtnew, ?_, ?_, ?_⟩
      · intro v hv
        rw [List.mem_singleton.mp hv]; exact hw
      · intro habs
        exact absurd habs (by simp)
      · intro _
        rw [wordChunkSize_single]
        refine ⟨le_refl _, Nat.le_succ _, Or.inr ?_⟩
        simp only [List.length_cons, List.length_nil]
        omega
  · rw [if_neg hcond]
    unfold WInv
    dsimp only
    have hclnew : ∀ v ∈ acc.2.1 ++ [w], StrClean v := by
      intro v hv
      rcases List.mem_append.mp hv with hv | hv
      · exact hcl v hv
      · rw [List.mem_singleton.mp hv]; exact hw
    refine ⟨hout, hclnew, fun habs => absurd habs (by simp), ?_⟩
    intro _
    by_cases hsub : acc.2.1 = []
    · have hz : acc.2.2 = 0 := hemp hsub
      rw [hsub]
      simp only [List.nil_append, wordChunkSize_single, hz]
      exact ⟨by omega, by omega, Or.inr (by simp)⟩
    · obtain ⟨hJ, hsz, _⟩ := hfull hsub
      have hle : acc.2.2 + w.length ≤ cs := by
        rcases not_and_or.mp hcond with h | h
        · omega
        · exact absurd hsub h
      rw [wordChunkSize_append_one acc.2.1 w hsub]
      exact ⟨by omega, by omega, Or.inl (by omega)⟩

theorem split_large_chunk_bound (chunk : String) (cs ov : Nat) :
    ∀ c ∈ split_large_chunk chunk cs ov, ChunkBound cs ov c := by
  intro c hc
  unfold split_large_chunk at hc
  have hinv : WInv cs ov ((pySplit chunk).foldl (wordStep cs ov) ([], [], 0)) := by
    refine foldl_inv (WInv cs ov) StrClean (wordStep cs ov)
      (wordStep_inv cs ov) (pySplit chunk) ([], [], 0) ?_ (pySplit_clean chunk)
    exact ⟨by simp, by simp, fun _ => rfl, fun habs => absurd rfl habs⟩
  set fin := (pySplit chunk).foldl (wordStep cs ov) ([], [], 0) with hfin
  obtain ⟨hout, hcl, _, hfull⟩ := hinv
  simp only at hc
  rcases List.mem_append.mp hc with hc | hc
  · exact hout c hc
  · by_cases hsub : fin.2.1 = []
    · rw [if_neg (by simp [hsub])] at hc
      exact absurd hc (List.not_mem_nil c)
    · rw [if_pos hsub] at hc
      rw [List.mem_singleton.mp hc]
      obtain ⟨hJ, _, hdisj⟩ := hfull hsub
      refine bound_of_clean_words cs ov fin.2.1 hcl hsub ?_
      rcases hdisj with h | h
      · exact Or.inl (le_trans hJ h)
      · exact Or.inr h

/-- C3 (amended): every chunk emitted by chunk_text has length at most
chunk_size + 1 or consists of at most overlap + 1 words (covering a
single oversized word and an oversized overlap-seed window). -/
theorem c3_chunk_bound_amended :
    ∀ (text : String) (cs ov : Nat), ∀ c ∈ chunk_text text cs ov,
      c.length ≤ cs + 1 ∨ (pySplit c).length ≤ ov + 1 := by
  intro text cs ov c hc
  unfold chunk_text at hc
  obtain ⟨l, hl, hcl⟩ := List.mem_flatten.mp hc
  obtain ⟨ch, hch, rfl⟩ := List.mem_map.mp hl
  by_cases hlen : ch.length > cs
  · rw [if_pos hlen] at hcl
    exact split_large_chunk_bound ch cs ov c hcl
  · rw [if_neg hlen] at hcl
    rw [List.mem_singleton.mp hcl]
    left
    omega

/-- Witness for C3 at the concrete off-by-one chunk "b a aa". -/
theorem c3_chunk_bound_amended_witness :
    ("b a aa" ∈ chunk_text "aaa b a aa" 5 1) ∧
    (("b a aa" : String).length ≤ 5 + 1 ∨ (pySplit "b a aa").length ≤ 1 + 1) :=
  ⟨by decide, c3_chunk_bound_amended "aaa b a aa" 5 1 "b a aa" (by decide)⟩

theorem chunkStepPairs_fst_step (cs ov : Nat) (fs : FState)
    (acc : List String × String) (s : String)
    (h1 : fs.chunks.map Prod.fst = acc.1) (h2 : fs.cur = acc.2) :
    (chunkStepPairs cs ov fs s).chunks.map Prod.fst =
      (chunkStep cs ov acc s).1 ∧
    (chunkStepPairs cs ov fs s).cur = (chunkStep cs ov acc s).2 := by
  unfold chunkStepPairs chunkStep
  rw [h2]
  split_ifs <;> simp [h1]

theorem chunkStepPairs_fst (cs ov : Nat) :
    ∀ (l : List String) (fs : FState) (acc : List String × String),
      fs.chunks.map Prod.fst = acc.1 → fs.cur = acc.2 →
      (l.foldl (chunkStepPairs cs ov) fs).chunks.map Prod.fst =
        (l.foldl (chunkStep cs ov) acc).1 ∧
      (l.foldl (chunkStepPairs cs ov) fs).cur =
        (l.foldl (chunkStep cs ov) acc).2 := by
  intro l
  induction l with
  | nil => intro fs acc h1 h2; exact ⟨h1, h2⟩
  | cons s l ih =>
    intro fs acc h1 h2
    simp only [List.foldl_cons]
    obtain ⟨g1, g2⟩ := chunkStepPairs_fst_step cs ov fs acc s h1 h2
    exact ih _ _ g1 g2

theorem sentencePassPairs_fst (cs ov : Nat) (sentences : List String) :
    (sentencePassPairs cs ov sentences).map Prod.fst =
      sentencePass cs ov sentences := by
  simp only [sentencePassPairs, sentencePass]
  obtain ⟨h1, h2⟩ := chunkStepPairs_fst cs ov sentences (FState.mk [] "" false)
    ([], "") rfl rfl
  rw [List.map_append, h1, h2]
  by_cases hc : (sentences.foldl (chunkStep cs ov) ([], "")).2 ≠ ""
  · rw [if_pos hc, if_pos hc]
    simp
  · rw [if_neg hc, if_neg hc]
    simp

theorem pySplit_append_space (a b : String) :
    pySplit (a ++ " " ++ b) = pySplit a ++ pySplit b := by
  unfold pySplit splitWordsL
  have hd : (a ++ " " ++ b).data = a.data ++ ' ' :: b.data := by
    rw [data_append, data_append]
    simp
  rw [hd, wordAux_append_space b.data a.data []]
  simp

theorem wordAux_all_space (sp : List Char)
    (h : ∀ c ∈ sp, pythonIsSpace c = true) :
    ∀ cur, wordAux sp cur = if cur = [] then [] else [cur.reverse] := by
  induction sp with
  | nil => intro cur; rfl
  | cons c sp ih =>
    intro cur
    have hc : pythonIsSpace c = true := h c (List.mem_cons_self c sp)
    have hrest : ∀ d ∈ sp, pythonIsSpace d = true :=
      fun d hd => h d (List.mem_cons_of_mem c hd)
    by_cases hcur : cur = []
    · subst hcur
      simp only [wordAux, hc, if_true, if_pos rfl]
      rw [ih hrest []]
      rfl
    · simp only [wordAux, hc, if_true, if_neg hcur]
      rw [ih hrest []]
      simp [hcur]

theorem wordAux_trailing_space (sp : List Char)
    (h : ∀ c ∈ sp, pythonIsSpace c = true) :
    ∀ (xs : List Char) (cur : List Char),
      wordAux (xs ++ sp) cur = wordAux xs cur := by
  intro xs
  induction xs with
  | nil =>
    intro cur
    rw [List.nil_append, wordAux_all_space sp h cur]
    rfl
  | cons c xs ih =>
    intro cur
    by_cases hs : pythonIsSpace c
    · by_cases hc : cur = []
      · subst hc; simp [wordAux, hs, ih]
      · simp [wordAux, hs, hc, ih]
    · simp [wordAux, hs, ih]

theorem wordAux_leading_space (sp : List Char)
    (h : ∀ c ∈ sp, pythonIsSpace c = true) (l : List Char) :
    wordAux (sp ++ l) [] = wordAux l [] := by
  induction sp with
  | nil => rfl
  | cons c sp ih =>
    have hc : pythonIsSpace c = true := h c (List.mem_cons_self c sp)
    have hrest : ∀ d ∈ sp, pythonIsSpace d = true :=
      fun d hd => h d (List.mem_cons_of_mem c hd)
    simp [wordAux, hc, ih hrest]

theorem pySplit_strip (s : String) : pySplit (pyStrip s) = pySplit s := by
  unfold pySplit pyStrip pyStripL splitWordsL
  set d1 := s.data.dropWhile pythonIsSpace with hd1
  have hlead : ∀ c ∈ s.data.takeWhile pythonIsSpace, pythonIsSpace c = true :=
    fun c hc => List.mem_takeWhile_imp hc
  have htrail : ∀ c ∈ (d1.reverse.takeWhile pythonIsSpace).reverse,
      pythonIsSpace c = true :=
    fun c hc => List.mem_takeWhile_imp (List.mem_reverse.mp hc)
  have hsplit : s.data = s.data.takeWhile pythonIsSpace ++ d1 := by
    rw [hd1, List.takeWhile_append_dropWhile]
  have hd1split : d1 = (d1.reverse.dropWhile pythonIsSpace).reverse ++
      (d1.reverse.takeWhile pythonIsSpace).reverse := by
    have h0 : d1.reverse.takeWhile pythonIsSpace ++
        d1.reverse.dropWhile pythonIsSpace = d1.reverse :=
      List.takeWhile_append_dropWhile pythonIsSpace d1.reverse
    calc d1 = d1.reverse.reverse := (List.reverse_reverse d1).symm
      _ = (d1.reverse.takeWhile pythonIsSpace ++
            d1.reverse.dropWhile pythonIsSpace).reverse := by rw [h0]
      _ = (d1.reverse.dropWhile pythonIsSpace).reverse ++
            (d1.reverse.takeWhile pythonIsSpace).reverse := List.reverse_append _ _
  have step1 : wordAux s.data [] = wordAux d1 [] := by
    conv_lhs => rw [hsplit]
    exact wordAux_leading_space _ hlead d1
  have step2 : wordAux d1 [] =
      wordAux (d1.reverse.dropWhile pythonIsSpace).reverse [] := by
    conv_lhs => rw [hd1split]
    exact wordAux_trailing_space _ htrail _ []
  rw [show (String.mk ((d1.reverse.dropWhile pythonIsSpace)).reverse).data =
      (d1.reverse.dropWhile pythonIsSpace).reverse from rfl]
  rw [step1, step2]


theorem overlapSeedWords_length (ov : Nat) (cur : String) :
    (overlapSeedWords ov cur).length = min (pySplit cur).length ov := by
  unfold overlapSeedWords
  rw [List.length_drop]
  have := Nat.min_le_left (pySplit cur).length ov
  omega

theorem seed_words_take (ov : Nat) (cur s : String) :
    (pySplit (joinSpaceS (overlapSeedWords ov cur) ++ " " ++ s)).take
        (min (pySplit cur).length ov) =
      (pySplit cur).drop
        ((pySplit cur).length - min (pySplit cur).length ov) := by
  have hsw_clean : ∀ w ∈ overlapSeedWords ov cur, StrClean w :=
    fun w hw => pySplit_clean cur w (List.drop_subset _ _ hw)
  rw [pySplit_append_space, pySplit_join _ hsw_clean,
    List.take_left' (overlapSeedWords_length ov cur)]
  rfl

theorem take_prefix_extend (k : Nat) (a b seg : List String)
    (h : a.take k = seg) (hlen : seg.length = k) : (a ++ b).take k = seg := by
  have hmin : min k a.length = k := by
    have := congrArg List.length h
    rw [List.length_take, hlen] at this
    exact this
  have hk : k ≤ a.length := hmin ▸ Nat.min_le_right k a.length
  rw [List.take_append_eq_append_take, h, Nat.sub_eq_zero_of_le hk,
    List.take_zero, List.append_nil]

theorem chain_append_emit (cs ov : Nat) (st : FState) (h : QInv cs ov st) :
    List.Chain' (seedRel ov) (st.chunks ++ [(pyStrip st.cur, st.seeded)]) := by
  obtain ⟨hch, hseed⟩ := h
  rw [List.chain'_append]
  refine ⟨hch, List.chain'_singleton _, ?_⟩
  intro x hx y hy
  rw [List.head?_cons, Option.mem_def, Option.some.injEq] at hy
  subst hy
  intro hflag
  obtain ⟨last, hlast, htake⟩ := hseed hflag
  rw [Option.mem_def, hlast, Option.some.injEq] at hx
  subst hx
  dsimp only
  rw [pySplit_strip]
  exact htake

theorem chunkStepPairs_inv (cs ov : Nat) (st : FState) (s : String)
    (h : QInv cs ov st) : QInv cs ov (chunkStepPairs cs ov st s) := by
  obtain ⟨hch, hseed⟩ := h
  unfold chunkStepPairs
  by_cases hb : st.cur.length + s.length > cs
  · rw [if_pos hb]
    by_cases hc : st.cur ≠ ""
    · rw [if_pos hc]
      by_cases ho : ov > 0
      · rw [if_pos ho]
        refine ⟨chain_append_emit cs ov st ⟨hch, hseed⟩, ?_⟩
        intro _
        refine ⟨(pyStrip st.cur, st.seeded), List.getLast?_concat _, ?_⟩
        dsimp only
        rw [pySplit_strip]
        exact seed_words_take ov st.cur s
      · rw [if_neg ho]
        refine ⟨chain_append_emit cs ov st ⟨hch, hseed⟩, ?_⟩
        intro hflag
        exact absurd hflag (by simp)
    · rw [if_neg hc]
      constructor
      · rw [List.chain'_append]
        refine ⟨hch, List.chain'_singleton _, ?_⟩
        intro x _ y hy
        rw [List.head?_cons, Option.mem_def, Option.some.injEq] at hy
        subst hy
        intro hflag
        exact absurd hflag (by simp)
      · intro hflag
        exact absurd hflag (by simp)
  · rw [if_neg hb]
    by_cases hc : st.cur ≠ ""
    · rw [if_pos hc]
      refine ⟨hch, ?_⟩
      intro hflag
      obtain ⟨last, hlast, htake⟩ := hseed hflag
      refine ⟨last, hlast, ?_⟩
      dsimp only
      rw [pySplit_append_space]
      refine take_prefix_extend _ _ _ _ htake ?_
      rw [List.length_drop]
      have := Nat.min_le_left (pySplit last.1).length ov
      omega
    · rw [if_neg hc]
      refine ⟨hch, ?_⟩
      intro hflag
      exact absurd hflag (by simp)

theorem foldl_chunkStepPairs_inv (cs ov : Nat) (l : List String) :
    ∀ st : FState, QInv cs ov st →
      QInv cs ov (l.foldl (chunkStepPairs cs ov) st) := by
  induction l with
  | nil => intro st hst; exact hst
  | cons s l ih =>
    intro st hst
    exact ih _ (chunkStepPairs_inv cs ov st s hst)

theorem sentencePassPairs_chain (cs ov : Nat) (sentences : List String) :
    List.Chain' (seedRel ov) (sentencePassPairs cs ov sentences) := by
  have hinv : QInv cs ov (sentences.foldl (chunkStepPairs cs ov)
      (FState.mk [] "" false)) :=
    foldl_chunkStepPairs_inv cs ov sentences _
      ⟨List.chain'_nil, fun hflag => absurd hflag (by simp)⟩
  simp only [sentencePassPairs]
  by_cases hc : (sentences.foldl (chunkStepPairs cs ov)
      (FState.mk [] "" false)).cur ≠ ""
  · rw [if_pos hc]
    exact chain_append_emit cs ov _ hinv
  · rw [if_neg hc]
    rw [List.append_nil]
    exact hinv.1

/-- C4 (amended): in the instrumented sentence pass - whose chunks are
exactly those of the sentence pass of chunk_text, second conjunct - every
chunk flagged as seeded from its predecessor begins with exactly the last
min(words of predecessor, overlap) words of that predecessor. -/
theorem c4_overlap_amended (cs ov : Nat) (sentences : List String) :
    List.Chain' (seedRel ov) (sentencePassPairs cs ov sentences) ∧
    (sentencePassPairs cs ov sentences).map Prod.fst =
      sentencePass cs ov sentences :=
  ⟨sentencePassPairs_chain cs ov sentences, sentencePassPairs_fst cs ov sentences⟩
